import Mathlib

/-
Verification development for the chiller~ spectral-freeze engine
(src/chiller~.cpp).  The C++ code is shallowly embedded: machine doubles
become exact reals, std::complex<double> becomes ℂ, std::vector becomes
List, and each message handler becomes a pure function on an explicit
engine-state record.  The mt19937 random stream is modelled as an oracle
pair of real-valued draw streams carried in the state.
-/

set_option maxHeartbeats 1600000

noncomputable section

open Complex

/-! ## Small list-access helpers (getD-based array reasoning) -/

/-- Reading a just-written cell of a list returns the written value. -/
theorem getD_set_self {α : Type} [Inhabited α] (l : List α) (i : ℕ) (v d : α)
    (h : i < l.length) : (l.set i v).getD i d = v := by
  simp [List.getD_eq_getElem?_getD, List.getElem?_set_self, h]

/-- Writing one cell of a list leaves every other cell unchanged. -/
theorem getD_set_ne {α : Type} [Inhabited α] (l : List α) (i t : ℕ) (v d : α)
    (h : i ≠ t) : (l.set i v).getD t d = l.getD t d := by
  simp [List.getD_eq_getElem?_getD, List.getElem?_set_ne h]

/-! ## Spectral transform: in-place radix-2 Cooley-Tukey FFT (chiller_fft) -/

/-- Bit-reversed increment: the inner loop of the bit-reversal reordering in
chiller_fft, clearing set bits of j from the top and setting the first
clear one (source lines 526-530). -/
def bitRevIncr (j bit : ℕ) : ℕ :=
  if h : j &&& bit ≠ 0 then bitRevIncr (j ^^^ bit) (bit >>> 1) else j ^^^ bit
termination_by bit
decreasing_by
  have hb : bit ≠ 0 := by
    intro h0
    exact h (by simp [h0])
  simpa [Nat.shiftRight_succ, Nat.shiftRight_zero] using
    Nat.div_lt_self (Nat.pos_of_ne_zero hb) (by norm_num)

/-- Exchange of two list cells, modelling std::swap on vector elements. -/
def swapL (l : List ℂ) (i j : ℕ) : List ℂ :=
  (l.set i (l.getD j 0)).set j (l.getD i 0)

/-- One iteration of the bit-reversal reordering loop of chiller_fft
(source lines 525-534): advance j by a reversed increment, then swap
data[i] and data[j] when i < j. -/
def bitRevStep (n : ℕ) (st : List ℂ × ℕ) (i : ℕ) : List ℂ × ℕ :=
  let j := bitRevIncr st.2 (n >>> 1)
  if i < j then (swapL st.1 i j, j) else (st.1, j)

/-- Bit-reversal reordering pass of chiller_fft: the loop for i = 1 .. n-1
with running index j starting at 0. -/
def bitRevPermute (n : ℕ) (data : List ℂ) : List ℂ :=
  ((List.range' 1 (n - 1)).foldl (bitRevStep n) (data, 0)).1

/-- Body of the butterfly inner loop (source lines 543-547): read u and v,
write u+v and u-v back, and advance the running twiddle w by wlen. -/
def blockStep (len : ℕ) (wlen : ℂ) (i : ℕ) (st : List ℂ × ℂ) (j : ℕ) : List ℂ × ℂ :=
  let u := st.1.getD (i + j) 0
  let v := st.1.getD (i + j + len / 2) 0 * st.2
  (((st.1.set (i + j) (u + v)).set (i + j + len / 2) (u - v)), st.2 * wlen)

/-- Butterfly pass over one block of width len starting at offset i,
with running twiddle w starting at 1 (source lines 541-548). -/
def fftBlock (len : ℕ) (wlen : ℂ) (data : List ℂ) (i : ℕ) : List ℂ :=
  ((List.range (len / 2)).foldl (blockStep len wlen i) (data, 1)).1

/-- One stage of chiller_fft for a given block length len: the twiddle base
wlen = (cos ang, sin ang) with ang = 2*pi/len, applied blockwise across the
whole array (source lines 537-550). -/
def fftStage (n len : ℕ) (data : List ℂ) : List ℂ :=
  let ang : ℝ := 2 * Real.pi / len
  let wlen : ℂ := ⟨Real.cos ang, Real.sin ang⟩
  (List.range (n / len)).foldl (fun d b => fftBlock len wlen d (b * len)) data

/-- The stage loop of chiller_fft: for len = 2, 4, ... while len <= n. -/
def fftStages (n len : ℕ) (data : List ℂ) : List ℂ :=
  if h : 0 < len ∧ len ≤ n then fftStages n (2 * len) (fftStage n len data)
  else data
termination_by n + 1 - len
decreasing_by omega

/-- In-place radix-2 Cooley-Tukey FFT of chiller~ (source lines 519-551):
returns data unchanged when n <= 1, otherwise bit-reversal reordering
followed by the butterfly stages. -/
def chiller_fft (data : List ℂ) : List ℂ :=
  let n := data.length
  if n ≤ 1 then data else fftStages n 2 (bitRevPermute n data)

/-- Inverse FFT of chiller~ (source lines 553-566): conjugate every element,
forward FFT, then conjugate and divide by the array size. -/
def chiller_ifft (data : List ℂ) : List ℂ :=
  let conjd := data.map fun z => (starRingEnd ℂ) z
  let t := chiller_fft conjd
  t.map fun z => (starRingEnd ℂ) z / (t.length : ℂ)

/-! ## Window generation and application -/

/-- Hann window of chiller_generate_window (source lines 568-572):
w[i] = 0.5 * (1 - cos(2*pi*i/(size-1))) for i in [0, size). -/
def chiller_generate_window (size : ℕ) : List ℝ :=
  (List.range size).map fun (i : ℕ) =>
    0.5 * (1 - Real.cos (2 * Real.pi * (i : ℝ) / ((size - 1 : ℕ) : ℝ)))

/-- Element-wise window multiply of chiller_apply_window (source lines
513-517): the first min(buffer length, window length) samples are scaled,
any remaining samples are left untouched. -/
def chiller_apply_window (buffer window : List ℝ) : List ℝ :=
  List.zipWith (fun a b => a * b) buffer window ++ buffer.drop window.length

/-! ## Engine state model -/

/-- Model of the external Max buffer~ object reached through a
t_buffer_ref: whether buffer_ref_getobject resolves it, whether
buffer_locksamples succeeds, the flat interleaved sample array, and the
frame and channel counts. -/
structure MaxBuffer where
  resolvable : Bool
  lockOk : Bool
  samples : ℤ → ℝ
  frames : ℕ
  channels : ℕ

/-- State record of the t_chiller object (source lines 15-54).  The two
draw streams together with rngIndex model the mt19937 generator and its
uniform distributions phase_dist (range [-pi, pi]) and amp_dist
(range [-1, 1]) as an abstract oracle. -/
@[ext]
structure t_chiller where
  buffer_ref : Option MaxBuffer
  buffer_name : String
  frozen_spectrum : List ℂ
  window : List ℝ
  overlap_buffer_l : List ℝ
  overlap_buffer_r : List ℝ
  fft_buffer : List ℂ
  analysis_buffer : List ℝ
  fft_size : ℕ
  hop_size : ℕ
  position : ℝ
  overlap_amount : ℝ
  grain_rate : ℝ
  phase_randomness : ℝ
  amplitude_variation : ℝ
  spectrum_captured : Bool
  capturing_spectrum : Bool
  grain_counter : ℤ
  hop_counter : ℤ
  sample_rate : ℝ
  last_position_change_time : ℝ
  phaseDraws : ℕ → ℝ
  ampDraws : ℕ → ℝ
  rngIndex : ℕ

/-- The CLAMP macro of the Max SDK: clamp a value into [lo, hi]. -/
def CLAMP (a lo hi : ℝ) : ℝ := if a < lo then lo else if a > hi then hi else a

/-- Truncation toward zero, the semantics of the C cast (long) applied to a
double value. -/
def realTrunc (v : ℝ) : ℤ := if 0 ≤ v then ⌊v⌋ else ⌈v⌉

/-- Total spectral energy: the sum of squared magnitudes accumulated in
chiller_capture_spectrum (source lines 476-480). -/
def specEnergy (l : List ℂ) : ℝ := (l.map fun z => Complex.abs z * Complex.abs z).sum

/-- Segment copy of chiller_capture_spectrum (source lines 454-462): read N
frames starting at start, copying directly for a mono buffer and averaging
interleaved pairs otherwise. -/
def readSegment (buf : MaxBuffer) (N : ℕ) (start : ℤ) : List ℝ :=
  (List.range N).map fun (i : ℕ) =>
    if buf.channels = 1 then buf.samples (start + (i : ℤ))
    else (buf.samples ((start + (i : ℤ)) * 2) + buf.samples ((start + (i : ℤ)) * 2 + 1)) * 0.5

/-- Spectrum capture pipeline chiller_capture_spectrum (source lines
417-511): validate the source, copy and window a segment, FFT it,
normalize its energy toward fft_size * 0.1, store it as the frozen
spectrum, zero the overlap accumulators and reset the hop counter. -/
def chiller_capture_spectrum (x : t_chiller) : t_chiller :=
  match x.buffer_ref with
  | none => x
  | some buffer =>
    let x1 := { x with capturing_spectrum := true }
    if buffer.resolvable = false then { x1 with capturing_spectrum := false }
    else if buffer.lockOk = false then { x1 with capturing_spectrum := false }
    else if buffer.frames < x1.fft_size then { x1 with capturing_spectrum := false }
    else
      let start_frame : ℤ := realTrunc (x1.position * ((buffer.frames - x1.fft_size : ℕ) : ℝ))
      let analysis1 := chiller_apply_window (readSegment buffer x1.fft_size start_frame) x1.window
      let fftOut := chiller_fft (analysis1.map fun (r : ℝ) => (r : ℂ))
      let spectrum_energy := specEnergy fftOut
      let target_energy : ℝ := (x1.fft_size : ℝ) * 0.1
      let fftNorm := if spectrum_energy > 1e-10 then
          fftOut.map fun z => z * ((Real.sqrt (target_energy / spectrum_energy) : ℝ) : ℂ)
        else fftOut
      { x1 with
        analysis_buffer := analysis1
        fft_buffer := fftNorm
        frozen_spectrum := fftNorm
        overlap_buffer_l := List.replicate x1.overlap_buffer_l.length 0
        overlap_buffer_r := List.replicate x1.overlap_buffer_r.length 0
        hop_counter := 0
        spectrum_captured := true
        capturing_spectrum := false }

/-! ## Message handlers -/

/-- Buffer binding command chiller_set_buffer (source lines 267-275):
store the new name, create a fresh buffer reference, and invalidate any
captured spectrum. -/
def chiller_set_buffer (x : t_chiller) (s : String) (newRef : MaxBuffer) : t_chiller :=
  { x with buffer_name := s, buffer_ref := some newRef, spectrum_captured := false }

/-- Position command chiller_set_position (source lines 277-296): debounce
against the monotonic clock (500 ms), then clamp and store the position,
record the time, and trigger a capture when none is in progress.  The
current monotonic time (systimer_gettime) is passed explicitly. -/
def chiller_set_position (x : t_chiller) (current_time pos : ℝ) : t_chiller :=
  let min_interval : ℝ := 500.0
  if current_time - x.last_position_change_time < min_interval then x
  else
    let x1 := { x with position := CLAMP pos 0.0 1.0, last_position_change_time := current_time }
    if x1.capturing_spectrum = false then
      chiller_capture_spectrum { x1 with spectrum_captured := false }
    else x1

/-- Overlap parameter setter (source lines 298-300). -/
def chiller_set_overlap (x : t_chiller) (overlap : ℝ) : t_chiller :=
  { x with overlap_amount := CLAMP overlap 1.0 8.0 }

/-- Grain-rate parameter setter (source lines 302-304). -/
def chiller_set_rate (x : t_chiller) (rate : ℝ) : t_chiller :=
  { x with grain_rate := CLAMP rate 0.1 4.0 }

/-- Phase-randomness parameter setter (source lines 306-308). -/
def chiller_set_phase_rand (x : t_chiller) (rand_amount : ℝ) : t_chiller :=
  { x with phase_randomness := CLAMP rand_amount 0.0 1.0 }

/-- Amplitude-variation parameter setter (source lines 310-312). -/
def chiller_set_amp_var (x : t_chiller) (var_amount : ℝ) : t_chiller :=
  { x with amplitude_variation := CLAMP var_amount 0.0 0.5 }

/-! ## Per-sample output scheduler and grain resynthesis -/

/-- Polar reconstruction std::polar: magnitude times (cos phase, sin phase). -/
def polarC (m θ : ℝ) : ℂ := ⟨m * Real.cos θ, m * Real.sin θ⟩

/-- Windowed real part of a grain (source line 234): sample j is
fft_buffer[j].re * window[j]. -/
def windowedReal (g : List ℂ) (w : List ℝ) : List ℝ :=
  (List.range g.length).map fun j => (g.getD j 0).re * w.getD j 0

/-- Overlap-add accumulation (source lines 237-238): add gain-scaled grain
samples into the matching accumulator cells. -/
def overlapAdd (l g : List ℝ) (gain : ℝ) : List ℝ :=
  match l, g with
  | a :: l2, b :: g2 => (a + b * gain) :: overlapAdd l2 g2 gain
  | l2, _ => l2

/-- Left shift by one of an overlap accumulator with a zero appended
(source lines 247-252). -/
def shiftBuf (l : List ℝ) : List ℝ :=
  match l with
  | [] => []
  | _ :: t => t ++ [0]

/-- Grain generation (source lines 216-239): per-bin magnitude/phase
decomposition with randomized phase offset and amplitude factor, polar
reconstruction, inverse FFT, then windowed overlap-add into both
accumulators with the fixed 0.8 / 1.0 stereo bias. -/
def grainStep (x : t_chiller) : t_chiller :=
  let spec := x.frozen_spectrum
  let newFft := (List.range spec.length).map fun (j : ℕ) =>
    let z := spec.getD j 0
    let magnitude := Complex.abs z
    let phase := Complex.arg z + x.phaseDraws (x.rngIndex + j) * x.phase_randomness
    let magnitude2 := magnitude * (1 + x.ampDraws (x.rngIndex + j) * x.amplitude_variation)
    polarC magnitude2 phase
  let g := chiller_ifft newFft
  { x with
    fft_buffer := g
    overlap_buffer_l := overlapAdd x.overlap_buffer_l (windowedReal g x.window) 0.8
    overlap_buffer_r := overlapAdd x.overlap_buffer_r (windowedReal g x.window) 1.0
    rngIndex := x.rngIndex + spec.length }

/-- Hop phase of one scheduler step (source lines 209-240): increment the
hop counter and fire a grain when it reaches hop_size / grain_rate. -/
def hopPhase (x : t_chiller) : t_chiller :=
  let x1 := { x with hop_counter := x.hop_counter + 1 }
  if ((x1.hop_counter : ℝ) ≥ (x1.hop_size : ℝ) / x1.grain_rate) then
    grainStep { x1 with hop_counter := 0 }
  else x1

/-- One full per-sample scheduler step (source lines 208-253): hop/grain
phase, then emit accumulator heads scaled by 0.1 and shift both
accumulators left with a zero appended. -/
def perSample (x : t_chiller) : t_chiller × ℝ × ℝ :=
  let x2 := hopPhase x
  ({ x2 with
      overlap_buffer_l := shiftBuf x2.overlap_buffer_l
      overlap_buffer_r := shiftBuf x2.overlap_buffer_r },
    x2.overlap_buffer_l.headD 0 * 0.1, x2.overlap_buffer_r.headD 0 * 0.1)

/-- Iterated scheduler steps producing the per-block output streams. -/
def performLoop (x : t_chiller) : ℕ → t_chiller × List ℝ × List ℝ
  | 0 => (x, [], [])
  | n + 1 =>
    let s := perSample x
    let rest := performLoop s.1 n
    (rest.1, s.2.1 :: rest.2.1, s.2.2 :: rest.2.2)

/-- Audio callback chiller_perform64 (source lines 195-254): silence and no
state change when no spectrum is captured or no buffer reference exists,
otherwise one scheduler step per sample frame. -/
def chiller_perform64 (x : t_chiller) (sampleframes : ℕ) : t_chiller × List ℝ × List ℝ :=
  if x.spectrum_captured = false ∨ x.buffer_ref.isNone = true then
    (x, List.replicate sampleframes 0, List.replicate sampleframes 0)
  else performLoop x sampleframes

/-- Concrete engine state used to instantiate hypotheses of the claim
theorems on explicit inputs; field values mirror chiller_new defaults. -/
def baseChiller : t_chiller where
  buffer_ref := none
  buffer_name := ""
  frozen_spectrum := []
  window := []
  overlap_buffer_l := []
  overlap_buffer_r := []
  fft_buffer := []
  analysis_buffer := []
  fft_size := 2048
  hop_size := 512
  position := 0.5
  overlap_amount := 4.0
  grain_rate := 1.0
  phase_randomness := 0.1
  amplitude_variation := 0.1
  spectrum_captured := false
  capturing_spectrum := false
  grain_counter := 0
  hop_counter := 0
  sample_rate := 44100.0
  last_position_change_time := 0.0
  phaseDraws := fun _ => 0
  ampDraws := fun _ => 0
  rngIndex := 0

end

noncomputable section

/-! ## Generic helper lemmas -/

/-- Reading a mapped range list inside bounds evaluates the function. -/
theorem getD_map_range {α : Type} [Inhabited α] (f : ℕ → α) (n i : ℕ) (d : α) (h : i < n) :
    ((List.range n).map f).getD i d = f i := by
  simp [List.getD_eq_getElem?_getD, List.getElem?_range h]

/-- Overwriting an already-false capturing flag with false is the identity. -/
theorem reset_capturing_eq (x : t_chiller) (h : x.capturing_spectrum = false) :
    { x with capturing_spectrum := false } = x := by
  cases x
  simp_all

/-- A capture attempt never changes the stored position or the debounce
timestamp, on any control path. -/
theorem capture_preserves_pos_time (y : t_chiller) :
    (chiller_capture_spectrum y).position = y.position ∧
    (chiller_capture_spectrum y).last_position_change_time = y.last_position_change_time := by
  unfold chiller_capture_spectrum
  rcases hb : y.buffer_ref with _ | b
  · simp
  · simp only []
    split_ifs <;> simp

/-! ## Claim theorems: controller and scheduler -/

/-- Claim C3: whenever the audio callback runs with no captured spectrum or
no bound buffer reference, every output sample of the block is exactly 0.0
on both channels and the engine state is returned unchanged, for every
block size. -/
theorem C3_silence_invariant (x : t_chiller) (n : ℕ)
    (h : x.spectrum_captured = false ∨ x.buffer_ref = none) :
    chiller_perform64 x n = (x, List.replicate n 0, List.replicate n 0) := by
  have h2 : x.spectrum_captured = false ∨ x.buffer_ref.isNone = true := by
    rcases h with h | h
    · exact Or.inl h
    · exact Or.inr (by simp [h])
  unfold chiller_perform64
  rw [if_pos h2]

/-- Witness for C3 at a concrete uncaptured state and block size 3. -/
theorem C3_silence_invariant_witness :
    chiller_perform64 baseChiller 3 = (baseChiller, List.replicate 3 0, List.replicate 3 0) :=
  C3_silence_invariant baseChiller 3 (Or.inl rfl)

/-- Claim C4: a capture request that fails (no buffer bound, buffer not
resolvable, sample data inaccessible, or fewer frames than the FFT size),
starting from a state that is not mid-capture, leaves the entire engine
state exactly as it was, in particular with capturing false at exit. -/
theorem C4_failed_capture_preserves_state (x : t_chiller)
    (hcap : x.capturing_spectrum = false)
    (hfail : x.buffer_ref = none ∨ ∃ b, x.buffer_ref = some b ∧
      (b.resolvable = false ∨ b.lockOk = false ∨ b.frames < x.fft_size)) :
    chiller_capture_spectrum x = x := by
  unfold chiller_capture_spectrum
  rcases hfail with h | ⟨b, hb, hcase⟩
  · rw [h]
  · rw [hb]
    simp only []
    rcases hcase with hc | hc | hc
    · rw [if_pos hc, ← hb]
      exact reset_capturing_eq x hcap
    · by_cases h1 : b.resolvable = false
      · rw [if_pos h1, ← hb]
        exact reset_capturing_eq x hcap
      · rw [if_neg h1, if_pos hc, ← hb]
        exact reset_capturing_eq x hcap
    · by_cases h1 : b.resolvable = false
      · rw [if_pos h1, ← hb]
        exact reset_capturing_eq x hcap
      · rw [if_neg h1]
        by_cases h2 : b.lockOk = false
        · rw [if_pos h2, ← hb]
          exact reset_capturing_eq x hcap
        · rw [if_neg h2, if_pos hc, ← hb]
          exact reset_capturing_eq x hcap

/-- Witness for C4 at a concrete state with no buffer bound. -/
theorem C4_failed_capture_preserves_state_witness :
    chiller_capture_spectrum baseChiller = baseChiller :=
  C4_failed_capture_preserves_state baseChiller rfl (Or.inl rfl)

/-- Claim C5: a position request arriving less than 500 ms after the last
accepted change is silently dropped with no state change and no capture; a
request arriving at least 500 ms after is accepted, storing the clamped
position and updating the debounce timestamp. -/
theorem C5_position_debounce (x : t_chiller) (now pos : ℝ) :
    (now - x.last_position_change_time < 500 → chiller_set_position x now pos = x) ∧
    (¬ (now - x.last_position_change_time < 500) →
      (chiller_set_position x now pos).position = CLAMP pos 0.0 1.0 ∧
      (chiller_set_position x now pos).last_position_change_time = now) := by
  have h500 : (500.0 : ℝ) = 500 := by norm_num
  constructor
  · intro h
    have h0 : now - x.last_position_change_time < (500.0 : ℝ) := by
      rw [h500]
      exact h
    simp only [chiller_set_position]
    rw [if_pos h0]
  · intro h
    have h0 : ¬ now - x.last_position_change_time < (500.0 : ℝ) := by
      rw [h500]
      exact h
    simp only [chiller_set_position]
    rw [if_neg h0]
    split_ifs with hc
    · exact ⟨(capture_preserves_pos_time _).1, (capture_preserves_pos_time _).2⟩
    · exact ⟨rfl, rfl⟩

/-- Witness for C5: a request 100 ms after the last accepted change at time
zero is dropped. -/
theorem C5_position_debounce_witness :
    chiller_set_position baseChiller 100 0.3 = baseChiller :=
  (C5_position_debounce baseChiller 100 0.3).1 (by norm_num [baseChiller])

/-- Claim C8: for every size at least 2, the generated window is the Hann
sequence w[i] = 0.5 * (1 - cos(2*pi*i/(size-1))) on all of [0, size), and
its first and last entries are exactly 0. -/
theorem C8_generate_window (size : ℕ) (h2 : 2 ≤ size) :
    (chiller_generate_window size).length = size ∧
    (∀ i < size, (chiller_generate_window size).getD i 0 =
      0.5 * (1 - Real.cos (2 * Real.pi * (i : ℝ) / ((size - 1 : ℕ) : ℝ)))) ∧
    (chiller_generate_window size).getD 0 0 = 0 ∧
    (chiller_generate_window size).getD (size - 1) 0 = 0 := by
  have hlen : (chiller_generate_window size).length = size := by
    simp [chiller_generate_window]
  have hval : ∀ i < size, (chiller_generate_window size).getD i 0 =
      0.5 * (1 - Real.cos (2 * Real.pi * (i : ℝ) / ((size - 1 : ℕ) : ℝ))) := by
    intro i hi
    unfold chiller_generate_window
    exact getD_map_range _ size i 0 hi
  refine ⟨hlen, hval, ?_, ?_⟩
  · rw [hval 0 (by omega)]
    norm_num
  · rw [hval (size - 1) (by omega)]
    have hne : ((size - 1 : ℕ) : ℝ) ≠ 0 := by
      have : 1 ≤ size - 1 := by omega
      positivity
    rw [mul_div_assoc, div_self hne, mul_one, Real.cos_two_pi]
    ring

/-- Witness for C8 at the minimal size 2. -/
theorem C8_generate_window_witness :
    (chiller_generate_window 2).length = 2 ∧
    (∀ i < 2, (chiller_generate_window 2).getD i 0 =
      0.5 * (1 - Real.cos (2 * Real.pi * (i : ℝ) / ((2 - 1 : ℕ) : ℝ)))) ∧
    (chiller_generate_window 2).getD 0 0 = 0 ∧
    (chiller_generate_window 2).getD (2 - 1) 0 = 0 :=
  C8_generate_window 2 (by norm_num)

/-- Claim C9: every set-buffer command clears the captured flag (so output
is silent until the next successful capture) and leaves the position, all
tunable parameters, the overlap accumulators and the hop counter
untouched. -/
theorem C9_set_buffer_invalidates (x : t_chiller) (s : String) (b : MaxBuffer) :
    (chiller_set_buffer x s b).spectrum_captured = false ∧
    (chiller_set_buffer x s b).position = x.position ∧
    (chiller_set_buffer x s b).overlap_amount = x.overlap_amount ∧
    (chiller_set_buffer x s b).grain_rate = x.grain_rate ∧
    (chiller_set_buffer x s b).phase_randomness = x.phase_randomness ∧
    (chiller_set_buffer x s b).amplitude_variation = x.amplitude_variation ∧
    (chiller_set_buffer x s b).overlap_buffer_l = x.overlap_buffer_l ∧
    (chiller_set_buffer x s b).overlap_buffer_r = x.overlap_buffer_r ∧
    (chiller_set_buffer x s b).hop_counter = x.hop_counter :=
  ⟨rfl, rfl, rfl, rfl, rfl, rfl, rfl, rfl, rfl⟩

/-- Claim C10: each of the overlap, rate, phase-randomness and
amplitude-variation setters writes exactly its own clamped parameter field
and nothing else, and the stored value always lies in the documented
range. -/
theorem C10_setters_clamp_only_own_field (x : t_chiller) (v : ℝ) :
    chiller_set_overlap x v = { x with overlap_amount := CLAMP v 1.0 8.0 } ∧
    chiller_set_rate x v = { x with grain_rate := CLAMP v 0.1 4.0 } ∧
    chiller_set_phase_rand x v = { x with phase_randomness := CLAMP v 0.0 1.0 } ∧
    chiller_set_amp_var x v = { x with amplitude_variation := CLAMP v 0.0 0.5 } ∧
    (1.0 ≤ (chiller_set_overlap x v).overlap_amount ∧
      (chiller_set_overlap x v).overlap_amount ≤ 8.0) ∧
    (0.1 ≤ (chiller_set_rate x v).grain_rate ∧ (chiller_set_rate x v).grain_rate ≤ 4.0) ∧
    (0.0 ≤ (chiller_set_phase_rand x v).phase_randomness ∧
      (chiller_set_phase_rand x v).phase_randomness ≤ 1.0) ∧
    (0.0 ≤ (chiller_set_amp_var x v).amplitude_variation ∧
      (chiller_set_amp_var x v).amplitude_variation ≤ 0.5) := by
  have hb : ∀ a lo hi : ℝ, lo ≤ hi → lo ≤ CLAMP a lo hi ∧ CLAMP a lo hi ≤ hi := by
    intro a lo hi hlh
    unfold CLAMP
    split_ifs with h1 h2
    · exact ⟨le_refl lo, hlh⟩
    · exact ⟨hlh, le_refl hi⟩
    · exact ⟨le_of_not_lt h1, le_of_not_lt h2⟩
  exact ⟨rfl, rfl, rfl, rfl,
    hb v 1.0 8.0 (by norm_num), hb v 0.1 4.0 (by norm_num),
    hb v 0.0 1.0 (by norm_num), hb v 0.0 0.5 (by norm_num)⟩

end

noncomputable section

/-! ## Capture pipeline claims -/

/-- Concrete resolvable one-frame silent mono buffer used to instantiate
capture hypotheses. -/
def zeroBuffer : MaxBuffer where
  resolvable := true
  lockOk := true
  samples := fun _ => 0
  frames := 1
  channels := 1

/-- Claim C7: a successful capture reads exactly N frames starting at frame
floor(position * (frames - N)); mono sources are copied directly and any
other channel count is downmixed by averaging the interleaved pair
2*(start+i), 2*(start+i)+1; the windowed copy lands in the analysis
buffer. -/
theorem C7_segment_copy (x : t_chiller) (b : MaxBuffer)
    (hb : x.buffer_ref = some b)
    (hres : b.resolvable = true) (hlock : b.lockOk = true)
    (hframes : ¬ b.frames < x.fft_size)
    (hpos : 0 ≤ x.position) :
    (chiller_capture_spectrum x).analysis_buffer =
      chiller_apply_window
        (readSegment b x.fft_size (realTrunc (x.position * ((b.frames - x.fft_size : ℕ) : ℝ))))
        x.window ∧
    realTrunc (x.position * ((b.frames - x.fft_size : ℕ) : ℝ)) =
      ⌊x.position * ((b.frames - x.fft_size : ℕ) : ℝ)⌋ ∧
    (readSegment b x.fft_size
      (realTrunc (x.position * ((b.frames - x.fft_size : ℕ) : ℝ)))).length = x.fft_size ∧
    (∀ i < x.fft_size,
      (readSegment b x.fft_size
        (realTrunc (x.position * ((b.frames - x.fft_size : ℕ) : ℝ)))).getD i 0 =
      if b.channels = 1 then
        b.samples (⌊x.position * ((b.frames - x.fft_size : ℕ) : ℝ)⌋ + (i : ℤ))
      else
        (b.samples ((⌊x.position * ((b.frames - x.fft_size : ℕ) : ℝ)⌋ + (i : ℤ)) * 2) +
         b.samples ((⌊x.position * ((b.frames - x.fft_size : ℕ) : ℝ)⌋ + (i : ℤ)) * 2 + 1)) * 0.5) := by
  have h1 : ¬ b.resolvable = false := by simp [hres]
  have h2 : ¬ b.lockOk = false := by simp [hlock]
  have htr : realTrunc (x.position * ((b.frames - x.fft_size : ℕ) : ℝ)) =
      ⌊x.position * ((b.frames - x.fft_size : ℕ) : ℝ)⌋ := by
    unfold realTrunc
    exact if_pos (mul_nonneg hpos (Nat.cast_nonneg _))
  refine ⟨?_, htr, ?_, ?_⟩
  · simp only [chiller_capture_spectrum, hb]
    rw [if_neg h1, if_neg h2, if_neg hframes]
  · simp [readSegment]
  · intro i hi
    unfold readSegment
    rw [getD_map_range _ _ i 0 hi, htr]

/-- Witness for C7: capture from a one-frame silent mono buffer with FFT
size 1. -/
theorem C7_segment_copy_witness :
    (chiller_capture_spectrum { baseChiller with buffer_ref := some zeroBuffer, fft_size := 1 }).analysis_buffer =
      chiller_apply_window (readSegment zeroBuffer 1 (realTrunc (0.5 * (((1 - 1 : ℕ) : ℕ) : ℝ))))
        baseChiller.window ∧
    realTrunc (0.5 * (((1 - 1 : ℕ) : ℕ) : ℝ)) = ⌊(0.5 : ℝ) * (((1 - 1 : ℕ) : ℕ) : ℝ)⌋ ∧
    (readSegment zeroBuffer 1 (realTrunc (0.5 * (((1 - 1 : ℕ) : ℕ) : ℝ)))).length = 1 ∧
    (∀ i < 1,
      (readSegment zeroBuffer 1 (realTrunc (0.5 * (((1 - 1 : ℕ) : ℕ) : ℝ)))).getD i 0 =
      if zeroBuffer.channels = 1 then
        zeroBuffer.samples (⌊(0.5 : ℝ) * (((1 - 1 : ℕ) : ℕ) : ℝ)⌋ + (i : ℤ))
      else
        (zeroBuffer.samples ((⌊(0.5 : ℝ) * (((1 - 1 : ℕ) : ℕ) : ℝ)⌋ + (i : ℤ)) * 2) +
         zeroBuffer.samples ((⌊(0.5 : ℝ) * (((1 - 1 : ℕ) : ℕ) : ℝ)⌋ + (i : ℤ)) * 2 + 1)) * 0.5) :=
  C7_segment_copy { baseChiller with buffer_ref := some zeroBuffer, fft_size := 1 }
    zeroBuffer rfl rfl rfl (by norm_num [zeroBuffer]) (by norm_num [baseChiller])

/-- Squared-magnitude energy scales quadratically under a real scalar. -/
theorem specEnergy_map_mul_real (l : List ℂ) (c : ℝ) :
    specEnergy (l.map fun z => z * ((c : ℝ) : ℂ)) = specEnergy l * (c * c) := by
  unfold specEnergy
  rw [List.map_map]
  have hfun : ((fun z => Complex.abs z * Complex.abs z) ∘ fun z : ℂ => z * ((c : ℝ) : ℂ)) =
      fun z : ℂ => (Complex.abs z * Complex.abs z) * (c * c) := by
    funext z
    simp only [Function.comp_apply, map_mul, Complex.abs_ofReal]
    rw [show Complex.abs z * |c| * (Complex.abs z * |c|) =
      Complex.abs z * Complex.abs z * (|c| * |c|) by ring, abs_mul_abs_self]
  rw [hfun, List.sum_map_mul_right]

/-- Claim C2: on a successful capture, when the post-FFT spectral energy
exceeds 1e-10 every bin is rescaled by sqrt(target/energy) with
target = fft_size * 0.1 and the stored frozen spectrum has total energy
exactly fft_size * 0.1; when the energy is at most 1e-10 the spectrum is
stored unscaled. -/
theorem C2_energy_normalization (x : t_chiller) (b : MaxBuffer)
    (hb : x.buffer_ref = some b)
    (hres : b.resolvable = true) (hlock : b.lockOk = true)
    (hframes : ¬ b.frames < x.fft_size) :
    (specEnergy (chiller_fft ((chiller_apply_window (readSegment b x.fft_size
        (realTrunc (x.position * ((b.frames - x.fft_size : ℕ) : ℝ)))) x.window).map
        fun (r : ℝ) => (r : ℂ))) > 1e-10 →
      (chiller_capture_spectrum x).frozen_spectrum =
        (chiller_fft ((chiller_apply_window (readSegment b x.fft_size
          (realTrunc (x.position * ((b.frames - x.fft_size : ℕ) : ℝ)))) x.window).map
          fun (r : ℝ) => (r : ℂ))).map
          (fun z => z * ((Real.sqrt (((x.fft_size : ℝ) * 0.1) /
            specEnergy (chiller_fft ((chiller_apply_window (readSegment b x.fft_size
              (realTrunc (x.position * ((b.frames - x.fft_size : ℕ) : ℝ)))) x.window).map
              fun (r : ℝ) => (r : ℂ))) ) : ℝ) : ℂ)) ∧
      specEnergy (chiller_capture_spectrum x).frozen_spectrum = (x.fft_size : ℝ) * 0.1) ∧
    (¬ specEnergy (chiller_fft ((chiller_apply_window (readSegment b x.fft_size
        (realTrunc (x.position * ((b.frames - x.fft_size : ℕ) : ℝ)))) x.window).map
        fun (r : ℝ) => (r : ℂ))) > 1e-10 →
      (chiller_capture_spectrum x).frozen_spectrum =
        chiller_fft ((chiller_apply_window (readSegment b x.fft_size
          (realTrunc (x.position * ((b.frames - x.fft_size : ℕ) : ℝ)))) x.window).map
          fun (r : ℝ) => (r : ℂ))) := by
  have h1 : ¬ b.resolvable = false := by simp [hres]
  have h2 : ¬ b.lockOk = false := by simp [hlock]
  have hfroz : (chiller_capture_spectrum x).frozen_spectrum =
      (if specEnergy (chiller_fft ((chiller_apply_window (readSegment b x.fft_size
          (realTrunc (x.position * ((b.frames - x.fft_size : ℕ) : ℝ)))) x.window).map
          fun (r : ℝ) => (r : ℂ))) > 1e-10 then
        (chiller_fft ((chiller_apply_window (readSegment b x.fft_size
          (realTrunc (x.position * ((b.frames - x.fft_size : ℕ) : ℝ)))) x.window).map
          fun (r : ℝ) => (r : ℂ))).map
          (fun z => z * ((Real.sqrt (((x.fft_size : ℝ) * 0.1) /
            specEnergy (chiller_fft ((chiller_apply_window (readSegment b x.fft_size
              (realTrunc (x.position * ((b.frames - x.fft_size : ℕ) : ℝ)))) x.window).map
              fun (r : ℝ) => (r : ℂ))) ) : ℝ) : ℂ))
      else chiller_fft ((chiller_apply_window (readSegment b x.fft_size
          (realTrunc (x.position * ((b.frames - x.fft_size : ℕ) : ℝ)))) x.window).map
          fun (r : ℝ) => (r : ℂ))) := by
    simp only [chiller_capture_spectrum, hb]
    rw [if_neg h1, if_neg h2, if_neg hframes]
  constructor
  · intro hE
    rw [hfroz, if_pos hE]
    refine ⟨rfl, ?_⟩
    rw [specEnergy_map_mul_real]
    have hEpos : 0 < specEnergy (chiller_fft ((chiller_apply_window (readSegment b x.fft_size
        (realTrunc (x.position * ((b.frames - x.fft_size : ℕ) : ℝ)))) x.window).map
        fun (r : ℝ) => (r : ℂ))) := by
      have : (0 : ℝ) < 1e-10 := by norm_num
      linarith
    have htge : (0 : ℝ) ≤ ((x.fft_size : ℝ) * 0.1) / specEnergy (chiller_fft
        ((chiller_apply_window (readSegment b x.fft_size
          (realTrunc (x.position * ((b.frames - x.fft_size : ℕ) : ℝ)))) x.window).map
          fun (r : ℝ) => (r : ℂ))) := by
      apply div_nonneg _ (le_of_lt hEpos)
      positivity
    rw [Real.mul_self_sqrt htge]
    field_simp
  · intro hE
    rw [hfroz, if_neg hE]

/-- Witness for C2: capturing a silent one-frame buffer leaves the zero
spectrum unscaled. -/
theorem C2_energy_normalization_witness :
    (chiller_capture_spectrum { baseChiller with buffer_ref := some zeroBuffer, fft_size := 1 }).frozen_spectrum =
      chiller_fft ((chiller_apply_window (readSegment zeroBuffer 1
        (realTrunc (0.5 * (((1 - 1 : ℕ) : ℕ) : ℝ)))) baseChiller.window).map
        fun (r : ℝ) => (r : ℂ)) := by
  have h := C2_energy_normalization { baseChiller with buffer_ref := some zeroBuffer, fft_size := 1 }
      zeroBuffer rfl rfl rfl (by norm_num [zeroBuffer])
  refine h.2 ?_
  simp only [baseChiller, zeroBuffer]
  norm_num [readSegment, chiller_apply_window, chiller_fft, specEnergy, realTrunc]

end

noncomputable section

/-! ## Scheduler shift claim -/

/-- Overlap-add never changes the accumulator length. -/
theorem overlapAdd_length (l g : List ℝ) (gain : ℝ) :
    (overlapAdd l g gain).length = l.length := by
  induction l generalizing g with
  | nil => cases g <;> simp [overlapAdd]
  | cons a t ih =>
    cases g with
    | nil => simp [overlapAdd]
    | cons b g2 => simp [overlapAdd, ih]

/-- The shift keeps the accumulator length. -/
theorem shiftBuf_length (l : List ℝ) : (shiftBuf l).length = l.length := by
  cases l <;> simp [shiftBuf]

/-- Every cell but the last of a shifted accumulator holds its right
neighbour. -/
theorem shiftBuf_getD (l : List ℝ) (i : ℕ) (h : i + 1 < l.length) :
    (shiftBuf l).getD i 0 = l.getD (i + 1) 0 := by
  cases l with
  | nil => simp at h
  | cons a t =>
    simp only [shiftBuf, List.getD_cons_succ]
    have ht : i < t.length := by simpa using h
    exact List.getD_append t [0] 0 i ht

/-- The last cell of a shifted accumulator is zero. -/
theorem shiftBuf_getD_last (l : List ℝ) (h : 0 < l.length) :
    (shiftBuf l).getD (l.length - 1) 0 = 0 := by
  cases l with
  | nil => simp at h
  | cons a t =>
    simp only [shiftBuf, List.length_cons, Nat.add_sub_cancel]
    rw [List.getD_eq_getElem?_getD, List.getElem?_append_right (le_refl t.length)]
    simp

/-- A grain trigger preserves the lengths of both overlap accumulators. -/
theorem hopPhase_overlap_lengths (x : t_chiller) :
    (hopPhase x).overlap_buffer_l.length = x.overlap_buffer_l.length ∧
    (hopPhase x).overlap_buffer_r.length = x.overlap_buffer_r.length := by
  unfold hopPhase
  dsimp only
  split_ifs
  · exact ⟨overlapAdd_length _ _ _, overlapAdd_length _ _ _⟩
  · exact ⟨rfl, rfl⟩

/-- Head access agrees with getD at index zero. -/
theorem headD_eq_getD (l : List ℝ) : l.headD 0 = l.getD 0 0 := by
  cases l <;> rfl

/-- Claim C6: every per-sample scheduler step taken while a spectrum is
captured emits accumulator[0] * 0.1 of the post-grain accumulators on each
channel, and afterwards each N-length accumulator has shifted left by one
cell with a zero appended. -/
theorem C6_output_shift_invariant (x : t_chiller) (N : ℕ)
    (hcap : x.spectrum_captured = true)
    (hl : x.overlap_buffer_l.length = N) (hr : x.overlap_buffer_r.length = N)
    (hN : 0 < N) :
    (perSample x).2.1 = (hopPhase x).overlap_buffer_l.getD 0 0 * 0.1 ∧
    (perSample x).2.2 = (hopPhase x).overlap_buffer_r.getD 0 0 * 0.1 ∧
    (perSample x).1.overlap_buffer_l.length = N ∧
    (perSample x).1.overlap_buffer_r.length = N ∧
    (∀ i, i + 1 < N → (perSample x).1.overlap_buffer_l.getD i 0 =
      (hopPhase x).overlap_buffer_l.getD (i + 1) 0) ∧
    (∀ i, i + 1 < N → (perSample x).1.overlap_buffer_r.getD i 0 =
      (hopPhase x).overlap_buffer_r.getD (i + 1) 0) ∧
    (perSample x).1.overlap_buffer_l.getD (N - 1) 0 = 0 ∧
    (perSample x).1.overlap_buffer_r.getD (N - 1) 0 = 0 := by
  have hLl : (hopPhase x).overlap_buffer_l.length = N :=
    (hopPhase_overlap_lengths x).1.trans hl
  have hLr : (hopPhase x).overlap_buffer_r.length = N :=
    (hopPhase_overlap_lengths x).2.trans hr
  refine ⟨?_, ?_, ?_, ?_, ?_, ?_, ?_, ?_⟩
  · show (hopPhase x).overlap_buffer_l.headD 0 * 0.1 =
      (hopPhase x).overlap_buffer_l.getD 0 0 * 0.1
    rw [headD_eq_getD]
  · show (hopPhase x).overlap_buffer_r.headD 0 * 0.1 =
      (hopPhase x).overlap_buffer_r.getD 0 0 * 0.1
    rw [headD_eq_getD]
  · show (shiftBuf (hopPhase x).overlap_buffer_l).length = N
    rw [shiftBuf_length, hLl]
  · show (shiftBuf (hopPhase x).overlap_buffer_r).length = N
    rw [shiftBuf_length, hLr]
  · intro i hi
    exact shiftBuf_getD _ i (by rw [hLl]; exact hi)
  · intro i hi
    exact shiftBuf_getD _ i (by rw [hLr]; exact hi)
  · show (shiftBuf (hopPhase x).overlap_buffer_l).getD (N - 1) 0 = 0
    rw [← hLl]
    exact shiftBuf_getD_last _ (by rw [hLl]; exact hN)
  · show (shiftBuf (hopPhase x).overlap_buffer_r).getD (N - 1) 0 = 0
    rw [← hLr]
    exact shiftBuf_getD_last _ (by rw [hLr]; exact hN)

/-- Witness for C6 at a concrete captured state with one-cell
accumulators. -/
theorem C6_output_shift_invariant_witness :
    (perSample { baseChiller with spectrum_captured := true, overlap_buffer_l := [0.2], overlap_buffer_r := [0.3] }).2.1 =
      (hopPhase { baseChiller with spectrum_captured := true, overlap_buffer_l := [0.2], overlap_buffer_r := [0.3] }).overlap_buffer_l.getD 0 0 * 0.1 ∧
    (perSample { baseChiller with spectrum_captured := true, overlap_buffer_l := [0.2], overlap_buffer_r := [0.3] }).2.2 =
      (hopPhase { baseChiller with spectrum_captured := true, overlap_buffer_l := [0.2], overlap_buffer_r := [0.3] }).overlap_buffer_r.getD 0 0 * 0.1 ∧
    (perSample { baseChiller with spectrum_captured := true, overlap_buffer_l := [0.2], overlap_buffer_r := [0.3] }).1.overlap_buffer_l.length = 1 ∧
    (perSample { baseChiller with spectrum_captured := true, overlap_buffer_l := [0.2], overlap_buffer_r := [0.3] }).1.overlap_buffer_r.length = 1 ∧
    (∀ i, i + 1 < 1 → (perSample { baseChiller with spectrum_captured := true, overlap_buffer_l := [0.2], overlap_buffer_r := [0.3] }).1.overlap_buffer_l.getD i 0 =
      (hopPhase { baseChiller with spectrum_captured := true, overlap_buffer_l := [0.2], overlap_buffer_r := [0.3] }).overlap_buffer_l.getD (i + 1) 0) ∧
    (∀ i, i + 1 < 1 → (perSample { baseChiller with spectrum_captured := true, overlap_buffer_l := [0.2], overlap_buffer_r := [0.3] }).1.overlap_buffer_r.getD i 0 =
      (hopPhase { baseChiller with spectrum_captured := true, overlap_buffer_l := [0.2], overlap_buffer_r := [0.3] }).overlap_buffer_r.getD (i + 1) 0) ∧
    (perSample { baseChiller with spectrum_captured := true, overlap_buffer_l := [0.2], overlap_buffer_r := [0.3] }).1.overlap_buffer_l.getD (1 - 1) 0 = 0 ∧
    (perSample { baseChiller with spectrum_captured := true, overlap_buffer_l := [0.2], overlap_buffer_r := [0.3] }).1.overlap_buffer_r.getD (1 - 1) 0 = 0 :=
  C6_output_shift_invariant
    { baseChiller with spectrum_captured := true, overlap_buffer_l := [0.2], overlap_buffer_r := [0.3] }
    1 rfl rfl rfl (by norm_num)

end

noncomputable section

/-! ## Bit-reversal arithmetic -/

/-- Reversal of the low k bits of a natural number. -/
def natBitRev : ℕ → ℕ → ℕ
  | 0, _ => 0
  | k + 1, i => (i % 2) * 2 ^ k + natBitRev k (i / 2)

/-- A k-bit reversal is bounded by 2 to the k. -/
theorem natBitRev_lt (k : ℕ) : ∀ i, natBitRev k i < 2 ^ k := by
  induction k with
  | zero => intro i; simp [natBitRev]
  | succ k ih =>
    intro i
    have hr := ih (i / 2)
    have h2 : i % 2 ≤ 1 := by omega
    simp only [natBitRev, pow_succ]
    rcases Nat.le_one_iff_eq_zero_or_eq_one.mp h2 with h | h <;> rw [h] <;> omega

/-- Reversal of zero is zero. -/
theorem natBitRev_zero (k : ℕ) : natBitRev k 0 = 0 := by
  induction k with
  | zero => rfl
  | succ k ih => simp [natBitRev, ih]

/-- Reversing an even number drops into the shorter reversal. -/
theorem natBitRev_two_mul (k b : ℕ) : natBitRev (k + 1) (2 * b) = natBitRev k b := by
  simp only [natBitRev]
  rw [show (2 * b) % 2 = 0 by omega, show (2 * b) / 2 = b by omega]
  simp

/-- Reversing an odd number sets the top bit of the shorter reversal. -/
theorem natBitRev_two_mul_add_one (k b : ℕ) :
    natBitRev (k + 1) (2 * b + 1) = 2 ^ k + natBitRev k b := by
  simp only [natBitRev]
  rw [show (2 * b + 1) % 2 = 1 by omega, show (2 * b + 1) / 2 = b by omega, one_mul]

/-- Bits above the bound of a small number are clear. -/
theorem testBit_ge_of_lt (x k t : ℕ) (h : x < 2 ^ k) (ht : k ≤ t) : x.testBit t = false :=
  Nat.testBit_lt_two_pow (lt_of_lt_of_le h (Nat.pow_le_pow_right (by norm_num) ht))

/-- Bit t of a k-bit reversal is bit k-1-t of the source. -/
theorem testBit_natBitRev (k : ℕ) : ∀ i t, t < k →
    (natBitRev k i).testBit t = i.testBit (k - 1 - t) := by
  induction k with
  | zero => intro i t ht; omega
  | succ k ih =>
    intro i t ht
    have hr : natBitRev k (i / 2) < 2 ^ k := natBitRev_lt k (i / 2)
    rcases Nat.mod_two_eq_zero_or_one i with hm | hm
    · have hv : natBitRev (k + 1) i = natBitRev k (i / 2) := by
        simp [natBitRev, hm]
      rw [hv]
      by_cases htk : t < k
      · rw [ih (i / 2) t htk, ← Nat.testBit_succ]
        congr 1
        omega
      · have hte : k = t := by omega
        subst hte
        rw [Nat.testBit_lt_two_pow hr, show k + 1 - 1 - k = 0 by omega, Nat.testBit_zero]
        simp [hm]
    · have hv : natBitRev (k + 1) i = 2 ^ k + natBitRev k (i / 2) := by
        simp [natBitRev, hm]
      rw [hv]
      by_cases htk : t < k
      · rw [Nat.testBit_two_pow_add_gt htk, ih (i / 2) t htk, ← Nat.testBit_succ]
        congr 1
        omega
      · have hte : k = t := by omega
        subst hte
        rw [Nat.testBit_two_pow_add_eq, Nat.testBit_lt_two_pow hr,
          show k + 1 - 1 - k = 0 by omega, Nat.testBit_zero]
        simp [hm]

/-- Bit reversal of k bits is an involution below 2 to the k. -/
theorem natBitRev_natBitRev (k i : ℕ) (h : i < 2 ^ k) :
    natBitRev k (natBitRev k i) = i := by
  apply Nat.eq_of_testBit_eq
  intro t
  by_cases ht : t < k
  · rw [testBit_natBitRev k _ t ht, testBit_natBitRev k i (k - 1 - t) (by omega)]
    congr 1
    omega
  · rw [testBit_ge_of_lt _ k t (natBitRev_lt k _) (by omega),
      testBit_ge_of_lt _ k t h (by omega)]

/-- The and of a small number with the power of two above it is zero. -/
theorem and_two_pow_eq_zero (r k : ℕ) (h : r < 2 ^ k) : r &&& 2 ^ k = 0 := by
  rw [Nat.and_two_pow, Nat.testBit_lt_two_pow h]
  simp

/-- With the top bit set, the and with that power of two is nonzero. -/
theorem two_pow_add_and_ne_zero (r k : ℕ) (h : r < 2 ^ k) : (2 ^ k + r) &&& 2 ^ k ≠ 0 := by
  rw [Nat.and_two_pow, Nat.testBit_two_pow_add_eq, Nat.testBit_lt_two_pow h]
  simp

/-- Xor with an absent top bit adds it. -/
theorem xor_two_pow_of_lt (r k : ℕ) (h : r < 2 ^ k) : r ^^^ 2 ^ k = 2 ^ k + r := by
  apply Nat.eq_of_testBit_eq
  intro t
  rw [Nat.testBit_xor, Nat.testBit_two_pow]
  by_cases htk : t < k
  · rw [Nat.testBit_two_pow_add_gt htk]
    simp [Nat.ne_of_gt htk]
  · by_cases hte : t = k
    · subst hte
      rw [Nat.testBit_two_pow_add_eq, Nat.testBit_lt_two_pow h]
      simp
    · have hkt : k < t := by omega
      have hk1 : 2 ^ k + r < 2 ^ (k + 1) := by
        have hp : 2 ^ (k + 1) = 2 ^ k + 2 ^ k := by ring
        omega
      rw [testBit_ge_of_lt (2 ^ k + r) (k + 1) t hk1 (by omega),
        testBit_ge_of_lt r k t h (by omega)]
      simp [Ne.symm hte]

/-- Xor with a present top bit removes it. -/
theorem two_pow_add_xor (r k : ℕ) (h : r < 2 ^ k) : (2 ^ k + r) ^^^ 2 ^ k = r := by
  apply Nat.eq_of_testBit_eq
  intro t
  rw [Nat.testBit_xor, Nat.testBit_two_pow]
  by_cases htk : t < k
  · rw [Nat.testBit_two_pow_add_gt htk]
    simp [Nat.ne_of_gt htk]
  · by_cases hte : t = k
    · subst hte
      rw [Nat.testBit_two_pow_add_eq, Nat.testBit_lt_two_pow h]
      simp
    · have hkt : k < t := by omega
      have hk1 : 2 ^ k + r < 2 ^ (k + 1) := by
        have hp : 2 ^ (k + 1) = 2 ^ k + 2 ^ k := by ring
        omega
      rw [testBit_ge_of_lt (2 ^ k + r) (k + 1) t hk1 (by omega),
        testBit_ge_of_lt r k t h (by omega)]
      simp [Ne.symm hte]

/-- The reversed-carry increment of chiller_fft maps the reversal of i to
the reversal of i+1. -/
theorem bitRevIncr_rev (k : ℕ) : ∀ i, i + 1 < 2 ^ k →
    bitRevIncr (natBitRev k i) (2 ^ k >>> 1) = natBitRev k (i + 1) := by
  induction k with
  | zero => intro i h; omega
  | succ k ih =>
    intro i h
    have hsh : 2 ^ (k + 1) >>> 1 = 2 ^ k := by
      rw [Nat.shiftRight_succ, Nat.shiftRight_zero, pow_succ, Nat.mul_div_cancel]
      norm_num
    have hr : natBitRev k (i / 2) < 2 ^ k := natBitRev_lt k (i / 2)
    rw [hsh]
    rcases Nat.mod_two_eq_zero_or_one i with hm | hm
    · have hv : natBitRev (k + 1) i = natBitRev k (i / 2) := by
        rw [show i = 2 * (i / 2) by omega, natBitRev_two_mul, Nat.mul_div_cancel_left _ (by norm_num)]
      have hv1 : natBitRev (k + 1) (i + 1) = 2 ^ k + natBitRev k (i / 2) := by
        rw [show i + 1 = 2 * (i / 2) + 1 by omega, natBitRev_two_mul_add_one]
      rw [hv, hv1, bitRevIncr]
      rw [dif_neg]
      · exact xor_two_pow_of_lt _ k hr
      · simp only [ne_eq, not_not]
        exact and_two_pow_eq_zero _ k hr
    · have hv : natBitRev (k + 1) i = 2 ^ k + natBitRev k (i / 2) := by
        rw [show i = 2 * (i / 2) + 1 by omega, natBitRev_two_mul_add_one,
          show (2 * (i / 2) + 1) / 2 = i / 2 by omega]
      have hv1 : natBitRev (k + 1) (i + 1) = natBitRev k (i / 2 + 1) := by
        rw [show i + 1 = 2 * (i / 2 + 1) by omega, natBitRev_two_mul]
      have hb1 : i / 2 + 1 < 2 ^ k := by
        have hp : 2 ^ (k + 1) = 2 ^ k + 2 ^ k := by ring
        omega
      rw [hv, hv1, bitRevIncr, dif_pos (two_pow_add_and_ne_zero _ k hr),
        two_pow_add_xor _ k hr]
      exact ih (i / 2) hb1

end

noncomputable section

/-! ## The bit-reversal reordering pass realizes the reversal permutation -/

/-- Swapping preserves length. -/
theorem swapL_length (l : List ℂ) (i j : ℕ) : (swapL l i j).length = l.length := by
  simp [swapL]

/-- First swapped cell receives the second value. -/
theorem getD_swapL_fst (l : List ℂ) (i j : ℕ) (hi : i < l.length) (hij : i ≠ j) :
    (swapL l i j).getD i 0 = l.getD j 0 := by
  unfold swapL
  rw [getD_set_ne _ j i _ _ (Ne.symm hij), getD_set_self _ i _ _ hi]

/-- Second swapped cell receives the first value. -/
theorem getD_swapL_snd (l : List ℂ) (i j : ℕ) (hj : j < l.length) :
    (swapL l i j).getD j 0 = l.getD i 0 := by
  unfold swapL
  exact getD_set_self _ j _ _ (by simpa using hj)

/-- Cells outside a swap are untouched. -/
theorem getD_swapL_other (l : List ℂ) (i j t : ℕ) (hti : t ≠ i) (htj : t ≠ j) :
    (swapL l i j).getD t 0 = l.getD t 0 := by
  unfold swapL
  rw [getD_set_ne _ j t _ _ (Ne.symm htj), getD_set_ne _ i t _ _ (Ne.symm hti)]

/-- Loop invariant of the bit-reversal pass: after the iterations for
indices 1..m the running index j holds the reversal of m, and every cell
whose unordered pair with its reversal has minimum at most m has been
exchanged with its reversal, all other cells being untouched. -/
theorem bitRevFold_spec (k : ℕ) (data : List ℂ) (hlen : data.length = 2 ^ k) :
    ∀ m, m + 1 ≤ 2 ^ k →
      ((List.range' 1 m).foldl (bitRevStep (2 ^ k)) (data, 0)).2 = natBitRev k m ∧
      ((List.range' 1 m).foldl (bitRevStep (2 ^ k)) (data, 0)).1.length = 2 ^ k ∧
      (∀ t, t < 2 ^ k →
        ((List.range' 1 m).foldl (bitRevStep (2 ^ k)) (data, 0)).1.getD t 0 =
          if t ≤ m ∨ natBitRev k t ≤ m then data.getD (natBitRev k t) 0
          else data.getD t 0) := by
  intro m
  induction m with
  | zero =>
    intro hm
    refine ⟨(natBitRev_zero k).symm, hlen, ?_⟩
    intro t ht
    show data.getD t 0 = _
    by_cases hc : t ≤ 0 ∨ natBitRev k t ≤ 0
    · have hteq : natBitRev k t = t := by
        rcases hc with h0 | h0
        · have ht0 : t = 0 := by omega
          rw [ht0]
          exact natBitRev_zero k
        · have h0e : natBitRev k t = 0 := by omega
          have h1 := congrArg (natBitRev k) h0e
          rw [natBitRev_natBitRev k t ht, natBitRev_zero] at h1
          rw [h1]
          exact natBitRev_zero k
      rw [if_pos hc, hteq]
    · rw [if_neg hc]
  | succ m ih =>
    intro hm1
    have hm : m + 1 ≤ 2 ^ k := by omega
    obtain ⟨hj, hlen2, hcells⟩ := ih hm
    rw [List.range'_1_concat 1 m, List.foldl_append, List.foldl_cons, List.foldl_nil]
    set st := (List.range' 1 m).foldl (bitRevStep (2 ^ k)) (data, 0) with hst
    have hJlt : natBitRev k (m + 1) < 2 ^ k := natBitRev_lt k (m + 1)
    have hrevJ : natBitRev k (natBitRev k (m + 1)) = m + 1 :=
      natBitRev_natBitRev k (m + 1) (by omega)
    have hstep : bitRevStep (2 ^ k) st (1 + m) =
        if m + 1 < natBitRev k (m + 1) then
          (swapL st.1 (m + 1) (natBitRev k (m + 1)), natBitRev k (m + 1))
        else (st.1, natBitRev k (m + 1)) := by
      unfold bitRevStep
      rw [Nat.add_comm 1 m, hj, bitRevIncr_rev k m (by omega)]
    rw [hstep]
    by_cases hswap : m + 1 < natBitRev k (m + 1)
    · rw [if_pos hswap]
      refine ⟨rfl, by rw [swapL_length, hlen2], ?_⟩
      intro t ht
      by_cases ht1 : t = m + 1
      · subst ht1
        rw [getD_swapL_fst st.1 (m + 1) (natBitRev k (m + 1)) (by rw [hlen2]; omega)
            (by omega),
          hcells (natBitRev k (m + 1)) hJlt, hrevJ, if_neg (by omega), if_pos (by omega)]
      · by_cases ht2 : t = natBitRev k (m + 1)
        · subst ht2
          rw [getD_swapL_snd st.1 (m + 1) (natBitRev k (m + 1)) (by rw [hlen2]; exact hJlt),
            hcells (m + 1) (by omega), if_neg (by omega), hrevJ, if_pos (by omega)]
        · rw [getD_swapL_other st.1 (m + 1) (natBitRev k (m + 1)) t ht1 ht2, hcells t ht]
          have hne1 : t ≠ m + 1 := ht1
          have hne2 : natBitRev k t ≠ m + 1 := by
            intro h0
            have h1 := congrArg (natBitRev k) h0
            rw [natBitRev_natBitRev k t ht] at h1
            exact ht2 h1
          by_cases hc : t ≤ m ∨ natBitRev k t ≤ m
          · rw [if_pos hc, if_pos (by omega)]
          · rw [if_neg hc, if_neg (by omega)]
    · rw [if_neg hswap]
      refine ⟨rfl, hlen2, ?_⟩
      intro t ht
      rw [hcells t ht]
      by_cases hc : t ≤ m ∨ natBitRev k t ≤ m
      · rw [if_pos hc, if_pos (by omega)]
      · by_cases hc2 : t ≤ m + 1 ∨ natBitRev k t ≤ m + 1
        · have hteq : natBitRev k t = t := by
            have hor : t = m + 1 ∨ natBitRev k t = m + 1 := by omega
            rcases hor with h0 | h0
            · subst h0
              omega
            · have h1 := congrArg (natBitRev k) h0
              rw [natBitRev_natBitRev k t ht] at h1
              omega
          rw [if_neg hc, if_pos hc2, hteq]
        · rw [if_neg hc, if_neg hc2]

/-- The bit-reversal pass of chiller_fft permutes the array by k-bit
reversal of indices. -/
theorem bitRevPermute_spec (k : ℕ) (data : List ℂ) (hlen : data.length = 2 ^ k) :
    (bitRevPermute (2 ^ k) data).length = 2 ^ k ∧
    ∀ t, t < 2 ^ k → (bitRevPermute (2 ^ k) data).getD t 0 = data.getD (natBitRev k t) 0 := by
  unfold bitRevPermute
  have hpos : 0 < 2 ^ k := pow_pos (by norm_num) k
  have h := bitRevFold_spec k data hlen (2 ^ k - 1) (by omega)
  refine ⟨h.2.1, ?_⟩
  intro t ht
  rw [h.2.2 t ht, if_pos]
  omega

end

noncomputable section

/-! ## Butterfly block and stage characterization -/

/-- Inner butterfly loop invariant: after q iterations the twiddle is
wlen to the q, the first q butterfly pairs are combined from the original
data, and every other cell is untouched. -/
theorem fftBlock_fold_spec (len : ℕ) (wlen : ℂ) (data : List ℂ) (i : ℕ)
    (hlen : i + len ≤ data.length) :
    ∀ q, q ≤ len / 2 →
      ((List.range q).foldl (blockStep len wlen i) (data, 1)).2 = wlen ^ q ∧
      ((List.range q).foldl (blockStep len wlen i) (data, 1)).1.length = data.length ∧
      (∀ j < q,
        ((List.range q).foldl (blockStep len wlen i) (data, 1)).1.getD (i + j) 0 =
          data.getD (i + j) 0 + data.getD (i + j + len / 2) 0 * wlen ^ j ∧
        ((List.range q).foldl (blockStep len wlen i) (data, 1)).1.getD (i + j + len / 2) 0 =
          data.getD (i + j) 0 - data.getD (i + j + len / 2) 0 * wlen ^ j) ∧
      (∀ p, (∀ j < q, p ≠ i + j ∧ p ≠ i + j + len / 2) →
        ((List.range q).foldl (blockStep len wlen i) (data, 1)).1.getD p 0 = data.getD p 0) := by
  have h2h : len / 2 * 2 ≤ len := Nat.div_mul_le_self len 2
  intro q
  induction q with
  | zero =>
    intro _
    refine ⟨(pow_zero wlen).symm, rfl, ?_, ?_⟩
    · intro j hj
      exact absurd hj (Nat.not_lt_zero j)
    · intro p _
      rfl
  | succ q ih =>
    intro hq
    have hq0 : q ≤ len / 2 := by omega
    obtain ⟨hw, hL, hdone, hrest⟩ := ih hq0
    rw [List.range_succ, List.foldl_append, List.foldl_cons, List.foldl_nil]
    set st := (List.range q).foldl (blockStep len wlen i) (data, 1) with hst
    have hu : st.1.getD (i + q) 0 = data.getD (i + q) 0 := by
      apply hrest
      intro j hj
      constructor <;> omega
    have hv : st.1.getD (i + q + len / 2) 0 = data.getD (i + q + len / 2) 0 := by
      apply hrest
      intro j hj
      constructor <;> omega
    have hstep : blockStep len wlen i st q =
        ((st.1.set (i + q) (data.getD (i + q) 0 + data.getD (i + q + len / 2) 0 * wlen ^ q)).set
          (i + q + len / 2)
          (data.getD (i + q) 0 - data.getD (i + q + len / 2) 0 * wlen ^ q),
         wlen ^ (q + 1)) := by
      unfold blockStep
      dsimp only
      rw [hu, hv, hw, pow_succ]
    rw [hstep]
    refine ⟨rfl, by simp [hL], ?_, ?_⟩
    · intro j hj
      by_cases hjq : j = q
      · subst hjq
        constructor
        · rw [getD_set_ne _ _ _ _ _ (by omega), getD_set_self _ _ _ _ (by rw [hL]; omega)]
        · rw [getD_set_self _ _ _ _ (by simp only [List.length_set]; rw [hL]; omega)]
      · have hjq2 : j < q := by omega
        obtain ⟨hj1, hj2⟩ := hdone j hjq2
        constructor
        · rw [getD_set_ne _ _ _ _ _ (by omega), getD_set_ne _ _ _ _ _ (by omega)]
          exact hj1
        · rw [getD_set_ne _ _ _ _ _ (by omega), getD_set_ne _ _ _ _ _ (by omega)]
          exact hj2
    · intro p hp
      have hpq := hp q (by omega)
      rw [getD_set_ne _ _ _ _ _ (by omega), getD_set_ne _ _ _ _ _ (by omega)]
      exact hrest p (fun j hj => hp j (by omega))

/-- Full butterfly pass over one block: pair combination inside the block,
identity outside it. -/
theorem fftBlock_spec (len : ℕ) (wlen : ℂ) (data : List ℂ) (i : ℕ)
    (hlen : i + len ≤ data.length) :
    (fftBlock len wlen data i).length = data.length ∧
    (∀ j < len / 2,
      (fftBlock len wlen data i).getD (i + j) 0 =
        data.getD (i + j) 0 + data.getD (i + j + len / 2) 0 * wlen ^ j ∧
      (fftBlock len wlen data i).getD (i + j + len / 2) 0 =
        data.getD (i + j) 0 - data.getD (i + j + len / 2) 0 * wlen ^ j) ∧
    (∀ p, p < i ∨ i + len ≤ p → (fftBlock len wlen data i).getD p 0 = data.getD p 0) := by
  have h2h : len / 2 * 2 ≤ len := Nat.div_mul_le_self len 2
  obtain ⟨hw, hL, hdone, hrest⟩ := fftBlock_fold_spec len wlen data i hlen (len / 2) (le_refl _)
  unfold fftBlock
  refine ⟨hL, hdone, ?_⟩
  intro p hp
  apply hrest
  intro j hj
  constructor <;> omega

/-- Stage fold invariant: after the first B blocks, those blocks are
butterfly-combined from the original data and all later cells are
untouched. -/
theorem fftStage_fold_spec (n len : ℕ) (wlen : ℂ) (data : List ℂ)
    (hn : data.length = n) (hdiv : len ∣ n) :
    ∀ B, B ≤ n / len →
      ((List.range B).foldl (fun d b => fftBlock len wlen d (b * len)) data).length = n ∧
      (∀ b < B, ∀ j < len / 2,
        ((List.range B).foldl (fun d b => fftBlock len wlen d (b * len)) data).getD
            (b * len + j) 0 =
          data.getD (b * len + j) 0 + data.getD (b * len + j + len / 2) 0 * wlen ^ j ∧
        ((List.range B).foldl (fun d b => fftBlock len wlen d (b * len)) data).getD
            (b * len + j + len / 2) 0 =
          data.getD (b * len + j) 0 - data.getD (b * len + j + len / 2) 0 * wlen ^ j) ∧
      (∀ p, B * len ≤ p →
        ((List.range B).foldl (fun d b => fftBlock len wlen d (b * len)) data).getD p 0 =
          data.getD p 0) := by
  have h2h : len / 2 * 2 ≤ len := Nat.div_mul_le_self len 2
  intro B
  induction B with
  | zero =>
    intro _
    exact ⟨hn, fun b hb => absurd hb (Nat.not_lt_zero b), fun p _ => rfl⟩
  | succ B ih =>
    intro hB
    have hB0 : B ≤ n / len := by omega
    obtain ⟨hL, hdone, hrest⟩ := ih hB0
    rw [List.range_succ, List.foldl_append, List.foldl_cons, List.foldl_nil]
    set st := (List.range B).foldl (fun d b => fftBlock len wlen d (b * len)) data with hst
    have hBn : B * len + len ≤ n := by
      have h1 : (B + 1) * len ≤ (n / len) * len := Nat.mul_le_mul_right len hB
      rw [Nat.div_mul_cancel hdiv] at h1
      rw [← Nat.succ_mul]
      exact h1
    obtain ⟨bL, bdone, brest⟩ := fftBlock_spec len wlen st (B * len) (by rw [hL]; exact hBn)
    refine ⟨by rw [bL, hL], ?_, ?_⟩
    · intro b hb j hj
      by_cases hbB : b = B
      · subst hbB
        obtain ⟨c1, c2⟩ := bdone j hj
        rw [c1, c2, hrest (b * len + j) (by omega), hrest (b * len + j + len / 2) (by omega)]
        exact ⟨rfl, rfl⟩
      · have hbB2 : b < B := by omega
        have hble : b * len + len ≤ B * len := by
          have h1 := Nat.mul_le_mul_right len (Nat.succ_le_of_lt hbB2)
          rwa [Nat.succ_mul] at h1
        obtain ⟨c1, c2⟩ := hdone b hbB2 j hj
        constructor
        · rw [brest (b * len + j) (by omega)]
          exact c1
        · rw [brest (b * len + j + len / 2) (by omega)]
          exact c2
    · intro p hp
      have hsucc : B * len + len ≤ p := by
        rw [← Nat.succ_mul]
        exact hp
      rw [brest p (by omega)]
      exact hrest p (by omega)

/-- One full stage of chiller_fft: every block of width len is butterfly
combined with the stage twiddle (cos, sin) of angle 2*pi/len. -/
theorem fftStage_spec (n len : ℕ) (data : List ℂ) (hn : data.length = n)
    (hdiv : len ∣ n) :
    (fftStage n len data).length = n ∧
    (∀ b < n / len, ∀ j < len / 2,
      (fftStage n len data).getD (b * len + j) 0 =
        data.getD (b * len + j) 0 + data.getD (b * len + j + len / 2) 0 *
          (⟨Real.cos (2 * Real.pi / (len : ℝ)), Real.sin (2 * Real.pi / (len : ℝ))⟩ : ℂ) ^ j ∧
      (fftStage n len data).getD (b * len + j + len / 2) 0 =
        data.getD (b * len + j) 0 - data.getD (b * len + j + len / 2) 0 *
          (⟨Real.cos (2 * Real.pi / (len : ℝ)), Real.sin (2 * Real.pi / (len : ℝ))⟩ : ℂ) ^ j) := by
  unfold fftStage
  dsimp only
  obtain ⟨h1, h2, h3⟩ := fftStage_fold_spec n len
    (⟨Real.cos (2 * Real.pi / (len : ℝ)), Real.sin (2 * Real.pi / (len : ℝ))⟩ : ℂ)
    data hn hdiv (n / len) (le_refl _)
  exact ⟨h1, h2⟩

end

noncomputable section

/-! ## Twiddle factors and partial DFT sums -/

/-- The stage twiddle base of chiller_fft as a complex exponential:
exp(2 pi i / m).  Note the positive sign, matching wlen = (cos ang, sin ang)
with ang = 2 pi / len in the source. -/
def twiddle (m : ℕ) : ℂ := Complex.exp (2 * (Real.pi : ℂ) * Complex.I / (m : ℂ))

/-- The (cos, sin) pair computed by chiller_fft is the twiddle exponential. -/
theorem twiddle_eq_mk (m : ℕ) :
    (⟨Real.cos (2 * Real.pi / (m : ℝ)), Real.sin (2 * Real.pi / (m : ℝ))⟩ : ℂ) = twiddle m := by
  rw [Complex.mk_eq_add_mul_I, twiddle]
  have harg : 2 * (Real.pi : ℂ) * Complex.I / (m : ℂ) =
      ((2 * Real.pi / (m : ℝ) : ℝ) : ℂ) * Complex.I := by
    push_cast
    ring
  rw [harg, Complex.exp_mul_I, ← Complex.ofReal_cos, ← Complex.ofReal_sin]

/-- Twiddle powers as exponentials. -/
theorem twiddle_pow (m a : ℕ) :
    twiddle m ^ a = Complex.exp (2 * (Real.pi : ℂ) * Complex.I * a / (m : ℂ)) := by
  rw [twiddle, ← Complex.exp_nat_mul]
  congr 1
  ring

/-- Twiddles never vanish. -/
theorem twiddle_ne_zero (m : ℕ) : twiddle m ≠ 0 := Complex.exp_ne_zero _

/-- Doubling both the order and the exponent preserves a twiddle power. -/
theorem twiddle_double_pow (m a : ℕ) (hm : m ≠ 0) :
    twiddle (2 * m) ^ (2 * a) = twiddle m ^ a := by
  rw [twiddle_pow, twiddle_pow]
  congr 1
  have hm2 : (m : ℂ) ≠ 0 := Nat.cast_ne_zero.mpr hm
  push_cast
  field_simp
  ring

/-- The half-order power of a doubled twiddle is minus one. -/
theorem twiddle_half_pow (m : ℕ) (hm : m ≠ 0) : twiddle (2 * m) ^ m = -1 := by
  rw [twiddle_pow]
  have hm2 : (m : ℂ) ≠ 0 := Nat.cast_ne_zero.mpr hm
  have harg : 2 * (Real.pi : ℂ) * Complex.I * (m : ℂ) / ((2 * m : ℕ) : ℂ) =
      (Real.pi : ℂ) * Complex.I := by
    push_cast
    field_simp
    ring
  rw [harg, Complex.exp_pi_mul_I]

/-- The full-order power of a twiddle is one. -/
theorem twiddle_pow_self (m : ℕ) (hm : m ≠ 0) : twiddle m ^ m = 1 :=
  (Complex.isPrimitiveRoot_exp m hm).pow_eq_one

/-- Conjugating a twiddle inverts it. -/
theorem twiddle_conj (m : ℕ) : (starRingEnd ℂ) (twiddle m) = (twiddle m)⁻¹ := by
  rw [twiddle, ← Complex.exp_conj, ← Complex.exp_neg]
  congr 1
  rw [map_div₀]
  simp only [map_mul, Complex.conj_I, Complex.conj_ofReal, map_ofNat, Complex.conj_natCast]
  ring

/-- Splitting a sum over an even range into even and odd indices. -/
theorem sum_range_even_odd {M : Type} [AddCommMonoid M] (f : ℕ → M) (m : ℕ) :
    ∑ t ∈ Finset.range (2 * m), f t =
      (∑ u ∈ Finset.range m, f (2 * u)) + ∑ u ∈ Finset.range m, f (2 * u + 1) := by
  induction m with
  | zero => simp
  | succ m ih =>
    rw [show 2 * (m + 1) = 2 * m + 1 + 1 by ring, Finset.sum_range_succ, Finset.sum_range_succ,
      ih, Finset.sum_range_succ, Finset.sum_range_succ]
    abel

/-- Partial DFT of the original data over stride-decimated subsequences:
the value held at block b, offset j after the stages up to length 2 to
the s. -/
def dftPartial (x : ℕ → ℂ) (k s b j : ℕ) : ℂ :=
  ∑ t ∈ Finset.range (2 ^ s),
    x (natBitRev (k - s) b + t * 2 ^ (k - s)) * twiddle (2 ^ s) ^ (j * t)

/-- At stage zero a partial DFT is a single bit-reversed sample. -/
theorem dftPartial_zero (x : ℕ → ℂ) (k b j : ℕ) :
    dftPartial x k 0 b j = x (natBitRev k b) := by
  unfold dftPartial
  simp

/-- Partial DFTs are periodic in the output index with period 2 to the s. -/
theorem dftPartial_period (x : ℕ → ℂ) (k s b j : ℕ) :
    dftPartial x k s b (j + 2 ^ s) = dftPartial x k s b j := by
  unfold dftPartial
  apply Finset.sum_congr rfl
  intro t _
  congr 1
  rw [show (j + 2 ^ s) * t = j * t + 2 ^ s * t by ring, pow_add,
    show twiddle (2 ^ s) ^ (2 ^ s * t) = (twiddle (2 ^ s) ^ 2 ^ s) ^ t from pow_mul _ _ _,
    twiddle_pow_self (2 ^ s) (by positivity), one_pow, mul_one]

/-- Danielson-Lanczos merge: a partial DFT of doubled width splits into its
even and odd halves combined by a twiddle power. -/
theorem dftPartial_succ (x : ℕ → ℂ) (k s b j : ℕ) (hsk : s + 1 ≤ k) :
    dftPartial x k (s + 1) b j =
      dftPartial x k s (2 * b) j + twiddle (2 ^ (s + 1)) ^ j * dftPartial x k s (2 * b + 1) j := by
  unfold dftPartial
  have hp : (2 : ℕ) ^ (s + 1) = 2 * 2 ^ s := by ring
  have hks : k - s = (k - s - 1) + 1 := by omega
  have hks2 : k - (s + 1) = k - s - 1 := by omega
  rw [hp, sum_range_even_odd, Finset.mul_sum]
  congr 1
  · apply Finset.sum_congr rfl
    intro u _
    have hidx : natBitRev (k - (s + 1)) b + 2 * u * 2 ^ (k - (s + 1)) =
        natBitRev (k - s) (2 * b) + u * 2 ^ (k - s) := by
      rw [hks, natBitRev_two_mul, hks2, pow_succ]
      ring
    rw [hidx]
    congr 1
    rw [show j * (2 * u) = 2 * (j * u) by ring]
    exact twiddle_double_pow (2 ^ s) (j * u) (by positivity)
  · apply Finset.sum_congr rfl
    intro u _
    have hidx : natBitRev (k - (s + 1)) b + (2 * u + 1) * 2 ^ (k - (s + 1)) =
        natBitRev (k - s) (2 * b + 1) + u * 2 ^ (k - s) := by
      rw [hks, natBitRev_two_mul_add_one, hks2, pow_succ]
      ring
    rw [hidx]
    rw [show j * (2 * u + 1) = 2 * (j * u) + j by ring, pow_add,
      twiddle_double_pow (2 ^ s) (j * u) (by positivity)]
    ring

end

noncomputable section

/-! ## Length preservation of the transform -/

/-- The inner butterfly fold preserves the array length. -/
theorem blockStep_fold_length (len : ℕ) (wlen : ℂ) (i : ℕ) :
    ∀ (l : List ℕ) (st : List ℂ × ℂ),
      ((l.foldl (blockStep len wlen i) st).1).length = st.1.length := by
  intro l
  induction l with
  | nil => intro st; rfl
  | cons a t ih =>
    intro st
    rw [List.foldl_cons, ih]
    simp [blockStep]

/-- A butterfly block pass preserves the array length. -/
theorem fftBlock_length (len : ℕ) (wlen : ℂ) (data : List ℂ) (i : ℕ) :
    (fftBlock len wlen data i).length = data.length := by
  unfold fftBlock
  exact blockStep_fold_length len wlen i _ _

/-- A full stage preserves the array length. -/
theorem fftStage_length (n len : ℕ) (data : List ℂ) :
    (fftStage n len data).length = data.length := by
  unfold fftStage
  dsimp only
  generalize List.range (n / len) = l
  induction l generalizing data with
  | nil => rfl
  | cons a t ih =>
    rw [List.foldl_cons, ih, fftBlock_length]

/-- The stage loop preserves the array length, fueled form. -/
theorem fftStages_length_aux (n : ℕ) :
    ∀ m len data, n + 1 - len ≤ m → (fftStages n len data).length = data.length := by
  intro m
  induction m with
  | zero =>
    intro len data hm
    rw [fftStages, dif_neg (by omega)]
  | succ m ih =>
    intro len data hm
    rw [fftStages]
    split_ifs with h
    · rw [ih (2 * len) _ (by omega), fftStage_length]
    · rfl

/-- The stage loop preserves the array length. -/
theorem fftStages_length (n len : ℕ) (data : List ℂ) :
    (fftStages n len data).length = data.length :=
  fftStages_length_aux n (n + 1 - len) len data (le_refl _)

/-- The bit-reversal pass preserves the array length, for any n. -/
theorem bitRevStep_fold_length (n : ℕ) :
    ∀ (l : List ℕ) (st : List ℂ × ℕ),
      ((l.foldl (bitRevStep n) st).1).length = st.1.length := by
  intro l
  induction l with
  | nil => intro st; rfl
  | cons a t ih =>
    intro st
    rw [List.foldl_cons, ih]
    unfold bitRevStep
    dsimp only
    split_ifs
    · exact swapL_length _ _ _
    · rfl

/-- The bit-reversal pass preserves the array length. -/
theorem bitRevPermute_length (n : ℕ) (data : List ℂ) :
    (bitRevPermute n data).length = data.length := by
  unfold bitRevPermute
  exact bitRevStep_fold_length n _ _

/-- chiller_fft preserves the array length. -/
theorem chiller_fft_length (data : List ℂ) : (chiller_fft data).length = data.length := by
  unfold chiller_fft
  dsimp only
  split_ifs
  · rfl
  · rw [fftStages_length, bitRevPermute_length]

/-! ## Stage-invariant propagation and the DFT theorem -/

/-- Running the remaining stages from stage s+1 on data satisfying the
stage-s invariant yields the full positive-sign DFT of the original
samples. -/
theorem fftStages_go (k : ℕ) (x : ℕ → ℂ) :
    ∀ m s d, s + m = k →
      d.length = 2 ^ k →
      (∀ b < 2 ^ (k - s), ∀ j < 2 ^ s, d.getD (b * 2 ^ s + j) 0 = dftPartial x k s b j) →
      (fftStages (2 ^ k) (2 ^ (s + 1)) d).length = 2 ^ k ∧
      (∀ j < 2 ^ k, (fftStages (2 ^ k) (2 ^ (s + 1)) d).getD j 0 = dftPartial x k k 0 j) := by
  intro m
  induction m with
  | zero =>
    intro s d hsk hlen hinv
    have hs : s = k := by omega
    subst hs
    have h1 : 0 < 2 ^ s := pow_pos (by norm_num) s
    have hp : (2 : ℕ) ^ (s + 1) = 2 * 2 ^ s := by ring
    rw [fftStages, dif_neg (by omega)]
    refine ⟨hlen, ?_⟩
    intro j hj
    have h0 := hinv 0 (by positivity) j hj
    simpa using h0
  | succ m ih =>
    intro s d hsk hlen hinv
    have hsk2 : s + 1 ≤ k := by omega
    have hdiv : (2 : ℕ) ^ (s + 1) ∣ 2 ^ k := pow_dvd_pow 2 hsk2
    have hcond : 0 < 2 ^ (s + 1) ∧ 2 ^ (s + 1) ≤ 2 ^ k :=
      ⟨pow_pos (by norm_num) _, Nat.pow_le_pow_right (by norm_num) hsk2⟩
    rw [fftStages, dif_pos hcond, show 2 * 2 ^ (s + 1) = 2 ^ (s + 1 + 1) from by ring]
    apply ih (s + 1) _ (by omega) (by rw [fftStage_length]; exact hlen)
    intro b hb j hj
    obtain ⟨sL, sG⟩ := fftStage_spec (2 ^ k) (2 ^ (s + 1)) d hlen hdiv
    have hhalf : 2 ^ (s + 1) / 2 = 2 ^ s := by
      rw [pow_succ, Nat.mul_div_cancel _ (by norm_num)]
    have hkseq : k - (s + 1) = k - s - 1 := by omega
    have hnb : 2 ^ k / 2 ^ (s + 1) = 2 ^ (k - s - 1) := by
      rw [Nat.pow_div hsk2 (by norm_num), hkseq]
    have hb2 : b < 2 ^ k / 2 ^ (s + 1) := by
      rw [hnb, ← hkseq]
      exact hb
    have hks1 : (k - s - 1) + 1 = k - s := by omega
    have hps : (2 : ℕ) ^ (k - s) = 2 * 2 ^ (k - s - 1) := by
      have hp0 := pow_succ 2 (k - s - 1)
      rw [hks1] at hp0
      omega
    have hb3 : b < 2 ^ (k - s - 1) := by
      rw [← hkseq]
      exact hb
    have h2b : 2 * b < 2 ^ (k - s) := by omega
    have h2b1 : 2 * b + 1 < 2 ^ (k - s) := by omega
    have hp2 : (2 : ℕ) ^ (s + 1) = 2 * 2 ^ s := by ring
    have htw := twiddle_eq_mk (2 ^ (s + 1))
    by_cases hjs : j < 2 ^ s
    · have hform := (sG b hb2 j (by rw [hhalf]; exact hjs)).1
      rw [hhalf] at hform
      rw [hform, htw,
        show b * 2 ^ (s + 1) + j = 2 * b * 2 ^ s + j from by rw [pow_succ]; ring,
        hinv (2 * b) h2b j hjs,
        show 2 * b * 2 ^ s + j + 2 ^ s = (2 * b + 1) * 2 ^ s + j from by ring,
        hinv (2 * b + 1) h2b1 j hjs,
        dftPartial_succ x k s b j hsk2]
      ring
    · obtain ⟨j2, rfl⟩ : ∃ j2, j = j2 + 2 ^ s := ⟨j - 2 ^ s, by omega⟩
      have hj2 : j2 < 2 ^ s := by omega
      have hform := (sG b hb2 j2 (by rw [hhalf]; exact hj2)).2
      rw [hhalf] at hform
      rw [show b * 2 ^ (s + 1) + (j2 + 2 ^ s) = b * 2 ^ (s + 1) + j2 + 2 ^ s from by ring,
        hform, htw,
        show b * 2 ^ (s + 1) + j2 = 2 * b * 2 ^ s + j2 from by rw [pow_succ]; ring,
        hinv (2 * b) h2b j2 hj2,
        show 2 * b * 2 ^ s + j2 + 2 ^ s = (2 * b + 1) * 2 ^ s + j2 from by ring,
        hinv (2 * b + 1) h2b1 j2 hj2,
        dftPartial_succ x k s b (j2 + 2 ^ s) hsk2,
        dftPartial_period, dftPartial_period,
        show twiddle (2 ^ (s + 1)) ^ (j2 + 2 ^ s) =
          twiddle (2 ^ (s + 1)) ^ j2 * twiddle (2 ^ (s + 1)) ^ 2 ^ s from pow_add _ _ _,
        show twiddle (2 ^ (s + 1)) ^ 2 ^ s = -1 from by
          rw [hp2]
          exact twiddle_half_pow (2 ^ s) (by positivity)]
      ring

/-- chiller_fft computes the positive-sign discrete Fourier transform of
its input on every power-of-two length. -/
theorem chiller_fft_dft (k : ℕ) (data : List ℂ) (hlen : data.length = 2 ^ k) :
    (chiller_fft data).length = 2 ^ k ∧
    (∀ j < 2 ^ k, (chiller_fft data).getD j 0 =
      ∑ t ∈ Finset.range (2 ^ k), data.getD t 0 * twiddle (2 ^ k) ^ (j * t)) := by
  by_cases hk : k = 0
  · subst hk
    have h1 : data.length ≤ 1 := by rw [hlen]; norm_num
    unfold chiller_fft
    dsimp only
    rw [if_pos h1]
    refine ⟨hlen, ?_⟩
    intro j hj
    have hj0 : j = 0 := by omega
    subst hj0
    simp
  · have hk1 : 1 ≤ k := by omega
    have hn2 : (2 : ℕ) ^ 1 ≤ 2 ^ k := Nat.pow_le_pow_right (by norm_num) hk1
    have hn1 : ¬ data.length ≤ 1 := by
      rw [hlen]
      omega
    unfold chiller_fft
    dsimp only
    rw [if_neg hn1, hlen]
    obtain ⟨pL, pG⟩ := bitRevPermute_spec k data hlen
    have base_inv : ∀ b < 2 ^ (k - 0), ∀ j < 2 ^ 0,
        (bitRevPermute (2 ^ k) data).getD (b * 2 ^ 0 + j) 0 =
          dftPartial (fun t => data.getD t 0) k 0 b j := by
      intro b hb j hj
      have hj0 : j = 0 := by omega
      subst hj0
      rw [dftPartial_zero]
      have hb2 : b < 2 ^ k := by simpa using hb
      simpa using pG b hb2
    have h := fftStages_go k (fun t => data.getD t 0) k 0 (bitRevPermute (2 ^ k) data)
      (by omega) pL base_inv
    rw [show (2 : ℕ) ^ (0 + 1) = 2 from by norm_num] at h
    refine ⟨h.1, ?_⟩
    intro j hj
    rw [h.2 j hj]
    unfold dftPartial
    rw [Nat.sub_self]
    simp [natBitRev]

end

noncomputable section

/-! ## Inversion: orthogonality of twiddle powers and the round trip -/

/-- In-bounds access through a map evaluates the function. -/
theorem getD_map_lt (f : ℂ → ℂ) (l : List ℂ) (t : ℕ) (ht : t < l.length) :
    (l.map f).getD t 0 = f (l.getD t 0) := by
  rw [List.getD_eq_getElem l 0 ht, List.getD_eq_getElem (l.map f) 0 (by simpa using ht)]
  simp

/-- The twiddle of order n is a primitive n-th root of unity. -/
theorem twiddle_primitive (n : ℕ) (hn : n ≠ 0) : IsPrimitiveRoot (twiddle n) n := by
  unfold twiddle
  exact Complex.isPrimitiveRoot_exp n hn

/-- Orthogonality: the geometric sum of the mixed twiddle ratio is n on the
diagonal and zero off it. -/
theorem twiddle_geom_sum (n u m : ℕ) (hn : n ≠ 0) (hu : u < n) (hm : m < n) :
    ∑ t ∈ Finset.range n, (twiddle n ^ u * (twiddle n ^ m)⁻¹) ^ t =
      if u = m then (n : ℂ) else 0 := by
  have htw0 : twiddle n ^ m ≠ 0 := pow_ne_zero _ (twiddle_ne_zero n)
  by_cases he : u = m
  · subst he
    rw [if_pos rfl, mul_inv_cancel₀ htw0]
    simp
  · rw [if_neg he]
    have hz1 : twiddle n ^ u * (twiddle n ^ m)⁻¹ ≠ 1 := by
      intro h1
      exact he ((twiddle_primitive n hn).pow_inj hu hm ((mul_inv_eq_one₀ htw0).mp h1))
    have h1 : (twiddle n ^ u) ^ n = 1 := by
      rw [pow_right_comm, twiddle_pow_self n hn, one_pow]
    have h2 : ((twiddle n ^ m)⁻¹) ^ n = 1 := by
      rw [inv_pow, pow_right_comm, twiddle_pow_self n hn, one_pow, inv_one]
    have hzn : (twiddle n ^ u * (twiddle n ^ m)⁻¹) ^ n = 1 := by
      rw [mul_pow, h1, h2, one_mul]
    rw [geom_sum_eq hz1 n, hzn]
    simp

/-- Round trip: applying chiller_ifft to chiller_fft recovers any
power-of-two-length input exactly. -/
theorem chiller_ifft_fft (k : ℕ) (data : List ℂ) (hlen : data.length = 2 ^ k) :
    chiller_ifft (chiller_fft data) = data := by
  have hn0 : (2 : ℕ) ^ k ≠ 0 := by positivity
  have hnC : ((2 ^ k : ℕ) : ℂ) ≠ 0 := Nat.cast_ne_zero.mpr hn0
  obtain ⟨FL, FG⟩ := chiller_fft_dft k data hlen
  have hCL : ((chiller_fft data).map (starRingEnd ℂ)).length = 2 ^ k := by
    rw [List.length_map, FL]
  obtain ⟨hGL, hGG⟩ := chiller_fft_dft k ((chiller_fft data).map (starRingEnd ℂ)) hCL
  unfold chiller_ifft
  dsimp only
  apply List.ext_getElem
  · rw [List.length_map, hGL, hlen]
  · intro i h1 h2
    have hi : i < 2 ^ k := by
      rw [List.length_map, hGL] at h1
      exact h1
    rw [← List.getD_eq_getElem _ 0 h1, ← List.getD_eq_getElem _ 0 h2,
      getD_map_lt _ _ i (by rw [hGL]; exact hi), hGL]
    rw [hGG i hi, map_sum]
    have hterm : ∀ t ∈ Finset.range (2 ^ k),
        (starRingEnd ℂ) (((chiller_fft data).map (starRingEnd ℂ)).getD t 0 *
          twiddle (2 ^ k) ^ (i * t)) =
        (∑ u ∈ Finset.range (2 ^ k), data.getD u 0 * twiddle (2 ^ k) ^ (t * u)) *
          ((twiddle (2 ^ k)) ^ i)⁻¹ ^ t := by
      intro t ht
      have htn : t < 2 ^ k := Finset.mem_range.mp ht
      rw [map_mul, getD_map_lt _ _ t (by rw [FL]; exact htn), Complex.conj_conj,
        map_pow, twiddle_conj, FG t htn]
      congr 1
      rw [inv_pow, inv_pow, ← pow_mul]
    rw [Finset.sum_congr rfl hterm]
    have hstep2 :
        (∑ t ∈ Finset.range (2 ^ k),
          (∑ u ∈ Finset.range (2 ^ k), data.getD u 0 * twiddle (2 ^ k) ^ (t * u)) *
            ((twiddle (2 ^ k)) ^ i)⁻¹ ^ t) =
        ∑ u ∈ Finset.range (2 ^ k), data.getD u 0 *
          ∑ t ∈ Finset.range (2 ^ k), (twiddle (2 ^ k) ^ u * (twiddle (2 ^ k) ^ i)⁻¹) ^ t := by
      rw [Finset.sum_congr rfl (fun t _ => Finset.sum_mul (Finset.range (2 ^ k))
        (fun u => data.getD u 0 * twiddle (2 ^ k) ^ (t * u)) (((twiddle (2 ^ k)) ^ i)⁻¹ ^ t)),
        Finset.sum_comm]
      apply Finset.sum_congr rfl
      intro u _
      rw [Finset.mul_sum]
      apply Finset.sum_congr rfl
      intro t _
      rw [show t * u = u * t from mul_comm t u, pow_mul, mul_pow, mul_assoc]
    rw [hstep2,
      Finset.sum_congr rfl (fun u hu => by
        rw [twiddle_geom_sum (2 ^ k) u i hn0 (Finset.mem_range.mp hu) hi])]
    simp only [mul_ite, mul_zero]
    rw [Finset.sum_ite_eq' (Finset.range (2 ^ k)) i (fun u => data.getD u 0 * ((2 ^ k : ℕ) : ℂ)),
      if_pos (Finset.mem_range.mpr hi), mul_div_assoc, div_self hnC, mul_one]

/-- Claim C1: the inverse transform is exactly the composition
conjugate-every-element, then forward fft, then conjugate-and-divide-by-N,
and for every power-of-two length N with 512 <= N <= 8192 the round trip
ifft(fft(x)) reproduces x exactly in the real-arithmetic model. -/
theorem C1_ifft_roundtrip (data : List ℂ) (k : ℕ) (hlen : data.length = 2 ^ k)
    (h512 : 512 ≤ data.length) (h8192 : data.length ≤ 8192) :
    chiller_ifft data =
      (chiller_fft (data.map (starRingEnd ℂ))).map
        (fun z => (starRingEnd ℂ) z / ((data.length : ℕ) : ℂ)) ∧
    chiller_ifft (chiller_fft data) = data := by
  constructor
  · unfold chiller_ifft
    dsimp only
    rw [chiller_fft_length, List.length_map]
  · exact chiller_ifft_fft k data hlen

/-- Witness for C1 at the concrete length 512. -/
theorem C1_ifft_roundtrip_witness :
    chiller_ifft (List.replicate 512 (0 : ℂ)) =
      (chiller_fft ((List.replicate 512 (0 : ℂ)).map (starRingEnd ℂ))).map
        (fun z => (starRingEnd ℂ) z / (((List.replicate 512 (0 : ℂ)).length : ℕ) : ℂ)) ∧
    chiller_ifft (chiller_fft (List.replicate 512 (0 : ℂ))) = List.replicate 512 (0 : ℂ) :=
  C1_ifft_roundtrip (List.replicate 512 (0 : ℂ)) 9 (by norm_num) (by norm_num) (by norm_num)

end
